import Mathlib

/-!
Shallow embedding of the `regex_generate` generation engine (`src/lib.rs`):
the randomness-source model, the interval sampler `sample_from_ranges`, the
quantifier resolver of the `Repetition` arm, and the recursive tree walk
`Generator::generate_from_hir`, together with theorems about them.

Machine integers are modelled as `Nat` with explicit reduction modulo the
item type's modulus (`2^8` for `u8`, `2^32` for `u32`) exactly where the
source arithmetic can wrap.  A Rust panic (an `expect`, an arithmetic
overflow, or a `rand` precondition violation) is modelled as a distinguished
outcome, kept separate from a returned `Err`.
-/

namespace RegexGenerate

/-- Abstract randomness source (the `rand::Rng` capability): an infinite
stream of raw natural draws together with a current position. -/
structure Rng where
  seq : Nat → Nat
  pos : Nat

/-- Draw the next raw value and advance the source's state. -/
def Rng.next (r : Rng) : Nat × Rng :=
  (r.seq r.pos, { r with pos := r.pos + 1 })

/-- Models `rng.sample(Uniform::new_inclusive(lo, hi))`.  `rand` panics when
`lo > hi` (modelled as `none`); otherwise the raw draw is reduced into the
inclusive interval. -/
def uniformInclusive (lo hi : Nat) (r : Rng) : Option (Nat × Rng) :=
  if lo ≤ hi then
    let p := r.next
    some (lo + p.1 % (hi - lo + 1), p.2)
  else none

/-- Models `rng.gen_range(lo..hi)` (half-open).  `rand` panics on an empty
range (modelled as `none`). -/
def genRange (lo hi : Nat) (r : Rng) : Option (Nat × Rng) :=
  if lo < hi then
    let p := r.next
    some (lo + p.1 % (hi - lo), p.2)
  else none

/-- `SAMPLE_UNBIASED_LIMIT` from the source. -/
def SAMPLE_UNBIASED_LIMIT : Nat := 2

/-- Modulus of the `u32` item type (Unicode class ranges, `max_repeat`). -/
def u32Mod : Nat := 4294967296

/-- Modulus of the `u8` item type (byte class ranges). -/
def u8Mod : Nat := 256

/-- One iteration of the loop that fills `normalized_ranges` and
`normalized_len`: record the entry `(normalized_len, start)`, then add the
range's width `end - start + 1` to `normalized_len`.  The `+ 1` and the
accumulation are performed in the item type, so they wrap at the modulus `m`;
`end - start` itself cannot wrap for a well-formed range (`start ≤ end`, a
class invariant), which is the only case this development states. -/
def normStep (m : Nat) (acc : List (Nat × Nat) × Nat) (p : Nat × Nat) :
    List (Nat × Nat) × Nat :=
  (acc.1 ++ [(acc.2, p.1)], (acc.2 + (p.2 - p.1 + 1) % m) % m)

/-- The `normalized_ranges` table (exactly `ranges.len()` entries, as the
source slices it with `[..ranges.len()]`) paired with `normalized_len`. -/
def normalizedTable (m : Nat) (ranges : List (Nat × Nat)) :
    List (Nat × Nat) × Nat :=
  ranges.foldl (normStep m) ([], 0)

/-- The standard-library binary search invoked as
`binary_search_by(|&(ns, _)| ns.cmp(&normalized_index))`: `Sum.inl i` models
`Ok(i)` (an entry whose offset equals the key) and `Sum.inr i` models
`Err(i)` (the insertion point). -/
def binarySearchGo (tbl : List (Nat × Nat)) (key left right : Nat) :
    Sum Nat Nat :=
  if _h : left < right then
    let mid := (left + right) / 2
    let ns := (tbl.getD mid (0, 0)).1
    if ns < key then binarySearchGo tbl key (mid + 1) right
    else if key < ns then binarySearchGo tbl key left mid
    else Sum.inl mid
  else Sum.inr left
termination_by right - left
decreasing_by
  all_goals omega

/-- Map a drawn index back to an absolute value in the unbiased branch:
binary-search the offset table, fall back to the previous entry on `Err`
(`unwrap_or_else(|i| i - 1)`; the `i = 0` case is unreachable because the
first entry's offset `0` is never greater than the key), then compute
`normalized_index - normalized_start + start`. -/
def unbiasedValue (tbl : List (Nat × Nat)) (idx : Nat) : Nat :=
  let ri :=
    match binarySearchGo tbl idx 0 tbl.length with
    | Sum.inl i => i
    | Sum.inr i => i - 1
  let e := tbl.getD ri (0, 0)
  idx - e.1 + e.2

/-- `sample_from_ranges`: cumulative-offset unbiased sampling for at most
`SAMPLE_UNBIASED_LIMIT` ranges, biased range-then-value sampling otherwise
(`ranges.choose(rng)` is modelled as a uniform index draw; its
`expect` on an empty list cannot fire in the biased branch).  `m` is the
modulus of the item type. -/
def sample_from_ranges (m : Nat) (ranges : List (Nat × Nat)) (r : Rng) :
    Option (Nat × Rng) :=
  if ranges.length ≤ SAMPLE_UNBIASED_LIMIT then
    let t := normalizedTable m ranges
    match genRange 0 t.2 r with
    | none => none
    | some (idx, r') => some (unbiasedValue t.1 idx, r')
  else
    let p := r.next
    let sr := ranges.getD (p.1 % ranges.length) (0, 0)
    uniformInclusive sr.1 sr.2 p.2

/-- `std::char::from_u32` succeeds exactly on values below `0x110000` that
are not surrogate code points. -/
def isValidScalar (v : Nat) : Bool :=
  decide (v < 0xD800 ∨ (0xDFFF < v ∧ v < 0x110000))

/-- UTF-8 encoding of a scalar value, as produced by `char::encode_utf8`
inside the source's `write_char` helper. -/
def utf8Encode (c : Nat) : List Nat :=
  if c < 0x80 then [c]
  else if c < 0x800 then [0xC0 + c / 64, 0x80 + c % 64]
  else if c < 0x10000 then
    [0xE0 + c / 4096, 0x80 + c / 64 % 64, 0x80 + c % 64]
  else
    [0xF0 + c / 262144, 0x80 + c / 4096 % 64, 0x80 + c / 64 % 64, 0x80 + c % 64]

/-- The output sink (`W: io::Write`): the accepted bytes plus an optional
remaining write budget.  A write larger than the remaining budget fails,
modelling an `io::Write` implementation that can reject a write; `none`
models a sink that always accepts. -/
structure Sink where
  buf : List Nat
  budget : Option Nat

/-- Append bytes to the sink, or fail. -/
def Sink.write (s : Sink) (bs : List Nat) : Option Sink :=
  match s.budget with
  | none => some { s with buf := s.buf ++ bs }
  | some k =>
    if bs.length ≤ k then
      some { buf := s.buf ++ bs, budget := some (k - bs.length) }
    else none

/-- `regex_syntax::hir::RepetitionRange`. -/
inductive RepetitionRange where
  | exactly (n : Nat)
  | atLeast (n : Nat)
  | bounded (a b : Nat)

/-- `regex_syntax::hir::RepetitionKind`. -/
inductive RepetitionKind where
  | zeroOrOne
  | zeroOrMore
  | oneOrMore
  | range (r : RepetitionRange)

/-- `regex_syntax::hir::Anchor`. -/
inductive AnchorKind where
  | startLine
  | endLine
  | startText
  | endText

/-- The parsed pattern tree (`regex_syntax::hir::Hir`), restricted to the
shapes the generator matches on.  Scalar values and bytes are carried as
`Nat`; class ranges as `(start, end)` pairs. -/
inductive Hir where
  | empty
  | anchor (a : AnchorKind)
  | wordBoundary
  | literalUnicode (c : Nat)
  | literalByte (b : Nat)
  | classUnicode (ranges : List (Nat × Nat))
  | classBytes (ranges : List (Nat × Nat))
  | repetition (kind : RepetitionKind) (greedy : Bool) (child : Hir)
  | group (child : Hir)
  | concat (children : List Hir)
  | alternation (children : List Hir)

/-- Outcome of a generation call.  `ok`/`err` are the `Ok`/`Err` values of
the returned `Result`, carrying the sink and randomness-source state;
`panic` is a process panic (an `expect`, or a `rand` precondition
violation), which is distinct from a returned error; `spin` reports that a
resample loop had not exited within the modelled number of iterations. -/
inductive GenOut where
  | ok (s : Sink) (r : Rng)
  | err (s : Sink) (r : Rng)
  | panic (s : Sink) (r : Rng)
  | spin

/-- The interval computation of the `Repetition` arm:
`let limit = max_repeat - 1` is a wrapping `u32` subtraction
(`max_repeat = 0` wraps to `2^32 - 1`), then the kind is matched to a pair
`(lo, hi)`. -/
def resolveRange (kind : RepetitionKind) (maxRepeat : Nat) : Nat × Nat :=
  let limit := (maxRepeat + (u32Mod - 1)) % u32Mod
  match kind with
  | .zeroOrOne => (0, 1)
  | .zeroOrMore => (0, limit)
  | .oneOrMore => (1, limit)
  | .range (.exactly n) => (n, n)
  | .range (.atLeast n) => (n, limit)
  | .range (.bounded a b) => (a, b)

/-- Resolve the repetition count: greedy draws uniformly from the interval
(`rand` panics when the interval is inverted, modelled as `none`); lazy takes
the interval's lower endpoint without consulting the randomness source. -/
def resolveCount (kind : RepetitionKind) (greedy : Bool) (maxRepeat : Nat)
    (r : Rng) : Option (Nat × Rng) :=
  let range := resolveRange kind maxRepeat
  if greedy then uniformInclusive range.1 range.2 r
  else some (range.1, r)

/-- The resample loop of the Unicode class arm: draw from the ranges, retry
while the drawn ordinal is not a valid scalar, and emit the UTF-8 encoding
once it is.  `fuel` bounds the number of loop iterations that are modelled;
`spin` reports that the source's unbounded `loop` was still running after
`fuel` iterations. -/
def classUnicodeLoop (ranges : List (Nat × Nat)) :
    Nat → Sink → Rng → GenOut
  | 0, _, _ => .spin
  | fuel + 1, s, r =>
    match sample_from_ranges u32Mod ranges r with
    | none => .panic s r
    | some (val, r') =>
      if isValidScalar val then
        match s.write (utf8Encode val) with
        | some s' => .ok s' r'
        | none => .err s r'
      else classUnicodeLoop ranges fuel s r'

mutual

/-- `Generator::generate_from_hir`: the recursive tree walk.  `fuel` bounds
only the Unicode-class resample loops; every other loop in the source is
already structurally bounded. -/
def genHir (fuel maxRepeat : Nat) (h : Hir) (s : Sink) (r : Rng) : GenOut :=
  match h with
  | .anchor .endLine =>
    match s.write [10] with
    | some s' => .ok s' r
    | none => .err s r
  | .empty => .ok s r
  | .anchor _ => .ok s r
  | .wordBoundary => .ok s r
  | .literalUnicode c =>
    match s.write (utf8Encode c) with
    | some s' => .ok s' r
    | none => .err s r
  | .literalByte b =>
    match s.write [b] with
    | some s' => .ok s' r
    | none => .err s r
  | .classUnicode ranges => classUnicodeLoop ranges fuel s r
  | .classBytes ranges =>
    match sample_from_ranges u8Mod ranges r with
    | none => .panic s r
    | some (val, r') =>
      match s.write [val % u8Mod] with
      | some s' => .ok s' r'
      | none => .err s r'
  | .repetition kind greedy child =>
    match resolveCount kind greedy maxRepeat r with
    | none => .panic s r
    | some (count, r') => genRep fuel maxRepeat child count s r'
  | .group child => genHir fuel maxRepeat child s r
  | .concat hs => genList fuel maxRepeat hs s r
  | .alternation hs =>
    if hne : hs.length = 0 then .panic s r
    else
      let p := r.next
      genHir fuel maxRepeat
        (hs.get ⟨p.1 % hs.length, Nat.mod_lt _ (Nat.pos_of_ne_zero hne)⟩)
        s p.2
termination_by (sizeOf h, 0)
decreasing_by
  all_goals simp_wf
  all_goals apply Prod.Lex.left
  all_goals simp_arith
  all_goals (have hlt : r.next.1 % hs.length < hs.length :=
               Nat.mod_lt _ (Nat.pos_of_ne_zero hne)
             have hmem : hs[r.next.1 % hs.length] ∈ hs := by
               apply List.getElem_mem
             have := List.sizeOf_lt_of_mem hmem
             omega)

/-- The `for _ in 0..count` loop of the `Repetition` arm.  A failing child is
run through `.expect`, i.e. the error becomes a panic. -/
def genRep (fuel maxRepeat : Nat) (child : Hir) (count : Nat) (s : Sink)
    (r : Rng) : GenOut :=
  match count with
  | 0 => .ok s r
  | count + 1 =>
    match genHir fuel maxRepeat child s r with
    | .ok s' r' => genRep fuel maxRepeat child count s' r'
    | .err s' r' => .panic s' r'
    | .panic s' r' => .panic s' r'
    | .spin => .spin
termination_by (sizeOf child, count + 1)
decreasing_by
  all_goals simp_wf
  · apply Prod.Lex.right; omega
  · apply Prod.Lex.right; omega

/-- The `for h in hirs` loop of the `Concat` arm.  A failing child is run
through `.expect`, i.e. the error becomes a panic. -/
def genList (fuel maxRepeat : Nat) (hs : List Hir) (s : Sink) (r : Rng) :
    GenOut :=
  match hs with
  | [] => .ok s r
  | h :: t =>
    match genHir fuel maxRepeat h s r with
    | .ok s' r' => genList fuel maxRepeat t s' r'
    | .err s' r' => .panic s' r'
    | .panic s' r' => .panic s' r'
    | .spin => .spin
termination_by (sizeOf hs, 0)
decreasing_by
  all_goals simp_wf
  all_goals apply Prod.Lex.left
  all_goals simp_arith

end

/-- The `Generator` struct: stored pattern tree, randomness source and
repetition bound. -/
structure Generator where
  hir : Hir
  rng : Rng
  max_repeat : Nat

/-- `Generator::generate`: run the tree walk on the stored tree with the
stored bound, threading the stored randomness source through the call and
back into the generator. -/
def Generator.generate (fuel : Nat) (g : Generator) (buffer : Sink) :
    GenOut × Generator :=
  match genHir fuel g.max_repeat g.hir buffer g.rng with
  | .ok s r => (.ok s r, { g with rng := r })
  | .err s r => (.err s r, { g with rng := r })
  | .panic s r => (.panic s r, { g with rng := r })
  | .spin => (.spin, g)

/-- The set of repetition counts reachable over all randomness sources. -/
def achievableCounts (kind : RepetitionKind) (greedy : Bool)
    (maxRepeat : Nat) : Set Nat :=
  { c | ∃ r r', resolveCount kind greedy maxRepeat r = some (c, r') }

/-- The spec's "total combined width" of a list of ranges, in exact
arithmetic. -/
def specTotalWidth (ranges : List (Nat × Nat)) : Nat :=
  (ranges.map (fun p => p.2 - p.1 + 1)).sum

/-- Membership in the union of the ranges. -/
def inRanges (ranges : List (Nat × Nat)) (v : Nat) : Prop :=
  ∃ p ∈ ranges, p.1 ≤ v ∧ v ≤ p.2

/-- Ranges of a Unicode class that are well-formed, strictly ordered and
disjoint, and avoid the surrogate block entirely, so that every spanned
ordinal is a valid scalar. -/
def scalarRangesB (ranges : List (Nat × Nat)) : Bool :=
  rangesSortedB ranges && ranges.all fun p =>
    decide (p.1 ≤ p.2) && decide (p.2 ≤ 0x10FFFF) &&
      (decide (p.2 < 0xD800) || decide (0xDFFF < p.1))
where
  /-- Adjacent ranges are strictly separated (`end < next start`). -/
  rangesSortedB : List (Nat × Nat) → Bool
    | [] => true
    | [_] => true
    | p :: q :: t => decide (p.2 < q.1) && rangesSortedB (q :: t)

/-- Every Unicode class occurring in the tree spans only valid scalar
values. -/
def scalarOnlyB : Hir → Bool
  | .classUnicode ranges => scalarRangesB ranges
  | .repetition _ _ child => scalarOnlyB child
  | .group child => scalarOnlyB child
  | .concat hs => hs.attach.all fun x => scalarOnlyB x.1
  | .alternation hs => hs.attach.all fun x => scalarOnlyB x.1
  | _ => true
termination_by h => sizeOf h
decreasing_by
  all_goals simp_wf
  all_goals try simp_arith
  all_goals (have h9 := List.sizeOf_lt_of_mem x.2; omega)

/-! ### Helper lemmas about the quantifier resolver -/

/-- The set of values reachable from an inclusive uniform draw is exactly the
inclusive interval (empty when the interval is inverted, since `rand`
panics there). -/
theorem uniformSet_eq_Icc (lo hi : Nat) :
    {c | ∃ r r', uniformInclusive lo hi r = some (c, r')} = Set.Icc lo hi := by
  ext c
  simp only [Set.mem_setOf_eq, Set.mem_Icc]
  constructor
  · rintro ⟨r, r', h⟩
    simp only [uniformInclusive, Rng.next] at h
    by_cases hle : lo ≤ hi
    · rw [if_pos hle] at h
      simp only [Option.some.injEq, Prod.mk.injEq] at h
      have hm : r.seq r.pos % (hi - lo + 1) < hi - lo + 1 := Nat.mod_lt _ (by omega)
      omega
    · rw [if_neg hle] at h
      exact absurd h (by simp)
  · rintro ⟨hlo, hhi⟩
    refine ⟨⟨fun _ => c - lo, 0⟩, ⟨fun _ => c - lo, 1⟩, ?_⟩
    simp only [uniformInclusive, Rng.next]
    rw [if_pos (hlo.trans hhi)]
    have hmod : (c - lo) % (hi - lo + 1) = c - lo := Nat.mod_eq_of_lt (by omega)
    simp only [hmod]
    rw [Nat.add_sub_cancel' hlo]

/-- Greedy resolution defers to the inclusive uniform draw over the interval
computed by `resolveRange`. -/
theorem resolveCount_greedy (kind : RepetitionKind) (M : Nat) (r : Rng) :
    resolveCount kind true M r =
      uniformInclusive (resolveRange kind M).1 (resolveRange kind M).2 r := by
  simp [resolveCount]

/-- Greedy resolution reaches exactly the inclusive interval computed by
`resolveRange`. -/
theorem achievable_greedy (kind : RepetitionKind) (M : Nat) :
    achievableCounts kind true M =
      Set.Icc (resolveRange kind M).1 (resolveRange kind M).2 := by
  rw [← uniformSet_eq_Icc]
  ext c
  simp only [achievableCounts, Set.mem_setOf_eq, resolveCount_greedy]

/-- The wrapping computation `limit = max_repeat - 1` for an in-range,
positive `max_repeat`. -/
theorem limit_eq {M : Nat} (h1 : 1 ≤ M) (h2 : M < u32Mod) :
    (M + (u32Mod - 1)) % u32Mod = M - 1 := by
  unfold u32Mod at *
  omega

/-- Running the repetition loop over a byte literal on an always-accepting
sink appends that many copies of the byte. -/
theorem genRep_literalByte (fuel M b : Nat) (count : Nat) :
    ∀ (buf : List Nat) (r : Rng),
      genRep fuel M (.literalByte b) count ⟨buf, none⟩ r =
        .ok ⟨buf ++ List.replicate count b, none⟩ r := by
  induction count with
  | zero => intro buf r; simp [genRep]
  | succ n ih =>
    intro buf r
    simp only [genRep, genHir, Sink.write]
    rw [ih]
    simp [List.replicate_succ]

/-- Greedy resolution of ZeroOrMore draws the count `draw % M`. -/
theorem resolve_zeroOrMore_greedy {M : Nat} (h1 : 1 ≤ M) (h2 : M < u32Mod)
    (r : Rng) :
    resolveCount .zeroOrMore true M r =
      some (r.seq r.pos % M, { r with pos := r.pos + 1 }) := by
  have h : resolveCount .zeroOrMore true M r =
      uniformInclusive 0 ((M + (u32Mod - 1)) % u32Mod) r := by
    simp [resolveCount, resolveRange]
  rw [h, limit_eq h1 h2]
  simp only [uniformInclusive, Rng.next]
  rw [if_pos (Nat.zero_le _)]
  have hM : M - 1 - 0 + 1 = M := by omega
  rw [hM]
  simp

/-! ### C1 -/

/-- C1 counterexample: with configured bound `M = 2`, the greedy ZeroOrMore
count is drawn from `[0, 1]`, so the count `2 ∈ [0, M]` promised by the claim
is never achieved. -/
theorem c1_counterexample :
    2 ∈ Set.Icc (0 : Nat) 2 ∧ 2 ∉ achievableCounts .zeroOrMore true 2 := by
  constructor
  · simp
  · rw [achievable_greedy]
    simp only [resolveRange, u32Mod]
    norm_num

/-- C1 (amended): with `limit = M - 1` (`1 ≤ M < 2^32`), the greedy
resolution intervals are ZeroOrOne `[0,1]`, ZeroOrMore `[0,M-1]`, OneOrMore
`[1,M-1]`, Range(min,None) `[min,M-1]` and Range(min,max) `[min,max]`
(reaching exactly those counts over all randomness sources; an inverted
interval reaches none), and a single unbounded greedy repetition over a
one-byte literal generates outputs whose length always lies in
`[0, M-1] ⊆ [0, M]`. -/
theorem c1_greedy_intervals (M : Nat) (h1 : 1 ≤ M) (h2 : M < u32Mod) :
    achievableCounts .zeroOrOne true M = Set.Icc 0 1 ∧
    achievableCounts .zeroOrMore true M = Set.Icc 0 (M - 1) ∧
    achievableCounts .oneOrMore true M = Set.Icc 1 (M - 1) ∧
    (∀ n, achievableCounts (.range (.exactly n)) true M = Set.Icc n n) ∧
    (∀ n, achievableCounts (.range (.atLeast n)) true M = Set.Icc n (M - 1)) ∧
    (∀ a b, achievableCounts (.range (.bounded a b)) true M = Set.Icc a b) ∧
    (∀ b fuel r, ∃ count r',
      genHir fuel M (.repetition .zeroOrMore true (.literalByte b)) ⟨[], none⟩ r =
        .ok ⟨List.replicate count b, none⟩ r' ∧ count ≤ M - 1) := by
  refine ⟨?_, ?_, ?_, ?_, ?_, ?_, ?_⟩
  · rw [achievable_greedy]; simp [resolveRange]
  · rw [achievable_greedy]
    simp only [resolveRange]
    rw [limit_eq h1 h2]
  · rw [achievable_greedy]
    simp only [resolveRange]
    rw [limit_eq h1 h2]
  · intro n; rw [achievable_greedy]; simp [resolveRange]
  · intro n; rw [achievable_greedy]
    simp only [resolveRange]
    rw [limit_eq h1 h2]
  · intro a b; rw [achievable_greedy]; simp [resolveRange]
  · intro b fuel r
    refine ⟨r.seq r.pos % M, { r with pos := r.pos + 1 }, ?_, ?_⟩
    · simp only [genHir]
      rw [resolve_zeroOrMore_greedy h1 h2]
      exact genRep_literalByte fuel M b _ [] _
    · have : r.seq r.pos % M < M := Nat.mod_lt _ (by omega)
      omega

/-- C1 witness: the amended theorem applied at `M = 3`. -/
theorem c1_witness :
    (1 ≤ 3 ∧ 3 < u32Mod) ∧
      achievableCounts .zeroOrMore true 3 = Set.Icc 0 2 := by
  have h1 : (1 : Nat) ≤ 3 := by norm_num
  have h2 : (3 : Nat) < u32Mod := by norm_num [u32Mod]
  exact ⟨⟨h1, h2⟩, (c1_greedy_intervals 3 h1 h2).2.1⟩

/-! ### C2 -/

/-- C2: a lazy quantifier always resolves to the interval's minimum,
independently of the randomness source, whose state is not even advanced;
in particular `a*?` always generates the empty output and `a+?` always
generates exactly one `a` (byte 97). -/
theorem c2_lazy_minimum :
    (∀ M r, resolveCount .zeroOrOne false M r = some (0, r)) ∧
    (∀ M r, resolveCount .zeroOrMore false M r = some (0, r)) ∧
    (∀ M r, resolveCount .oneOrMore false M r = some (1, r)) ∧
    (∀ n M r, resolveCount (.range (.exactly n)) false M r = some (n, r)) ∧
    (∀ n M r, resolveCount (.range (.atLeast n)) false M r = some (n, r)) ∧
    (∀ a b M r, resolveCount (.range (.bounded a b)) false M r = some (a, r)) ∧
    (∀ fuel M r,
      genHir fuel M (.repetition .zeroOrMore false (.literalByte 97)) ⟨[], none⟩ r =
        .ok ⟨[], none⟩ r) ∧
    (∀ fuel M r,
      genHir fuel M (.repetition .oneOrMore false (.literalByte 97)) ⟨[], none⟩ r =
        .ok ⟨[97], none⟩ r) := by
  refine ⟨?_, ?_, ?_, ?_, ?_, ?_, ?_, ?_⟩
  · intro M r; simp [resolveCount, resolveRange]
  · intro M r; simp [resolveCount, resolveRange]
  · intro M r; simp [resolveCount, resolveRange]
  · intro n M r; simp [resolveCount, resolveRange]
  · intro n M r; simp [resolveCount, resolveRange]
  · intro a b M r; simp [resolveCount, resolveRange]
  · intro fuel M r
    have h : resolveCount .zeroOrMore false M r = some (0, r) := by
      simp [resolveCount, resolveRange]
    simp only [genHir]
    rw [h]
    show genRep fuel M (.literalByte 97) 0 ⟨[], none⟩ r = _
    simp [genRep]
  · intro fuel M r
    have h : resolveCount .oneOrMore false M r = some (1, r) := by
      simp [resolveCount, resolveRange]
    simp only [genHir]
    rw [h]
    show genRep fuel M (.literalByte 97) 1 ⟨[], none⟩ r = _
    rw [genRep_literalByte]
    rfl

/-! ### C3 -/

/-- C3 counterexample: with configured bound `M = 0`, the wrapping `u32`
computation `limit = max_repeat - 1` produces `2^32 - 1`, and a greedy
ZeroOrMore resolves to count 5 on a source drawing 5 — not to zero or one
repetitions as the claim states. -/
theorem c3_counterexample :
    resolveCount .zeroOrMore true 0 ⟨fun _ => 5, 0⟩ =
      some (5, ⟨fun _ => 5, 1⟩) ∧ 1 < 5 := by
  constructor
  · simp [resolveCount, resolveRange, uniformInclusive, Rng.next, u32Mod]
  · omega

/-- C3 (amended): `M = 0` underflows the `u32` computation `limit =
max_repeat - 1` (wrapping to `2^32 - 1`); greedy unbounded repetitions then
draw their count from the huge intervals `[0, 2^32-1]` / `[1, 2^32-1]`
instead of collapsing to zero or one repetitions. -/
theorem c3_m_zero_wraps :
    achievableCounts .zeroOrMore true 0 = Set.Icc 0 (u32Mod - 1) ∧
    achievableCounts .oneOrMore true 0 = Set.Icc 1 (u32Mod - 1) := by
  constructor
  · rw [achievable_greedy]
    show Set.Icc 0 ((0 + (u32Mod - 1)) % u32Mod) = _
    norm_num [u32Mod]
  · rw [achievable_greedy]
    show Set.Icc 1 ((0 + (u32Mod - 1)) % u32Mod) = _
    norm_num [u32Mod]

/-! ### C4 -/

/-- C4 counterexample: for the unbounded quantifier `Range(5, None)` under
greedy resolution with configured bound `M = 3 < 5`, resolution does not
succeed with count 5: `Uniform::new_inclusive(5, 2)` has `low > high` and
panics (modelled as `none`). -/
theorem c4_counterexample :
    resolveCount (.range (.atLeast 5)) true 3 ⟨fun _ => 0, 0⟩ = none ∧
      3 < 5 := by
  constructor
  · simp [resolveCount, resolveRange, uniformInclusive, u32Mod]
  · omega

/-- C4 (amended): for an unbounded Range quantifier with `min ≥ M` (in
particular `min > M`), greedy resolution panics in
`Uniform::new_inclusive` because `min > limit = M - 1`; no count is
produced at all, rather than the degenerate `[min,min]` interval the claim
states. -/
theorem c4_min_above_bound_panics (M n : Nat) (r : Rng) (h1 : 1 ≤ M)
    (h2 : M < u32Mod) (h3 : M ≤ n) :
    resolveCount (.range (.atLeast n)) true M r = none := by
  have h : resolveCount (.range (.atLeast n)) true M r =
      uniformInclusive n ((M + (u32Mod - 1)) % u32Mod) r := by
    simp [resolveCount, resolveRange]
  rw [h, limit_eq h1 h2]
  simp only [uniformInclusive]
  rw [if_neg]
  omega

/-! ### C5 -/

/-- C5: a failing child inside a Concat or a Repetition loop is run through
`.expect`, so the sink's error becomes a process panic instead of the
call's returned error value.  Concretely, on a sink with zero write budget,
the pattern `ab` (and likewise `a{2}`) panics rather than returning the
error. -/
theorem c5_expect_panics :
    genHir 1 100 (.concat [.literalByte 97, .literalByte 98])
        ⟨[], some 0⟩ ⟨fun _ => 0, 0⟩ =
      .panic ⟨[], some 0⟩ ⟨fun _ => 0, 0⟩ ∧
    genHir 1 100 (.repetition (.range (.exactly 2)) true (.literalByte 97))
        ⟨[], some 0⟩ ⟨fun _ => 0, 0⟩ =
      .panic ⟨[], some 0⟩ ⟨fun _ => 0, 1⟩ := by
  constructor
  · simp [genHir, genList, Sink.write]
  · have h : resolveCount (.range (.exactly 2)) true 100 ⟨fun _ => 0, 0⟩ =
        some (2, ⟨fun _ => 0, 1⟩) := by
      simp [resolveCount, resolveRange, uniformInclusive, Rng.next]
    simp only [genHir]
    rw [h]
    show genRep 1 100 (.literalByte 97) 2 ⟨[], some 0⟩ ⟨fun _ => 0, 1⟩ = _
    simp [genRep, genHir, Sink.write]

/-! ### C9 -/

/-- C9: a generate call never changes the generator's stored pattern tree or
its configured repetition bound, whatever the outcome; only the randomness
source state (and the caller's sink) move. -/
theorem c9_tree_and_bound_immutable (fuel : Nat) (g : Generator)
    (buffer : Sink) :
    ((g.generate fuel buffer).2).hir = g.hir ∧
    ((g.generate fuel buffer).2).max_repeat = g.max_repeat := by
  unfold Generator.generate
  cases hg : genHir fuel g.max_repeat g.hir buffer g.rng <;> simp

/-! ### Helper lemmas about the interval sampler -/

/-- The normalized table of a single range. -/
theorem normalizedTable_one (m s e : Nat) :
    normalizedTable m [(s, e)] = ([(0, s)], (e - s + 1) % m) := by
  simp [normalizedTable, normStep, Nat.mod_mod_of_dvd]

/-- The normalized table of two ranges. -/
theorem normalizedTable_two (m s0 e0 s1 e1 : Nat) :
    normalizedTable m [(s0, e0), (s1, e1)] =
      ([(0, s0), ((e0 - s0 + 1) % m, s1)],
        ((e0 - s0 + 1) % m + (e1 - s1 + 1) % m) % m) := by
  simp [normalizedTable, normStep, Nat.mod_mod_of_dvd]

/-- Binary search on a one-entry table always lands on entry 0. -/
theorem unbiasedValue_one (s idx : Nat) :
    unbiasedValue [(0, s)] idx = idx + s := by
  have hb : binarySearchGo [(0, s)] idx 0 1 =
      if idx = 0 then Sum.inl 0 else Sum.inr 1 := by
    rw [binarySearchGo]
    norm_num
    rcases Nat.eq_zero_or_pos idx with h | h
    · simp [h]
    · rw [if_pos h, binarySearchGo]
      simp [Nat.pos_iff_ne_zero.mp h]
  have hlen : ([(0, s)] : List (Nat × Nat)).length = 1 := rfl
  unfold unbiasedValue
  rw [hlen, hb]
  rcases Nat.eq_zero_or_pos idx with h | h
  · simp [h]
  · rw [if_neg (by omega)]
    simp

/-- Binary search on a two-entry table, key below the second offset. -/
theorem unbiasedValue_two_lo (s0 s1 w0 idx : Nat) (hidx : idx < w0) :
    unbiasedValue [(0, s0), (w0, s1)] idx = idx + s0 := by
  have hb : binarySearchGo [(0, s0), (w0, s1)] idx 0 2 =
      if idx = 0 then Sum.inl 0 else Sum.inr 1 := by
    rw [binarySearchGo]
    norm_num
    rw [if_neg (by omega), if_pos hidx, binarySearchGo]
    norm_num
    rcases Nat.eq_zero_or_pos idx with h | h
    · simp [h]
    · rw [if_pos h, binarySearchGo]
      simp [Nat.pos_iff_ne_zero.mp h]
  have hlen : ([(0, s0), (w0, s1)] : List (Nat × Nat)).length = 2 := rfl
  unfold unbiasedValue
  rw [hlen, hb]
  rcases Nat.eq_zero_or_pos idx with h | h
  · simp [h]
  · rw [if_neg (by omega)]
    simp

/-- Binary search on a two-entry table, key at or above the second offset. -/
theorem unbiasedValue_two_hi (s0 s1 w0 idx : Nat) (hidx : w0 ≤ idx) :
    unbiasedValue [(0, s0), (w0, s1)] idx = idx - w0 + s1 := by
  have hb : binarySearchGo [(0, s0), (w0, s1)] idx 0 2 =
      if w0 = idx then Sum.inl 1 else Sum.inr 2 := by
    rw [binarySearchGo]
    norm_num
    rcases Nat.lt_or_ge w0 idx with h | h
    · rw [if_pos h, binarySearchGo]
      norm_num
      rw [if_neg (by omega)]
    · have heq : w0 = idx := by omega
      simp [heq]
  have hlen : ([(0, s0), (w0, s1)] : List (Nat × Nat)).length = 2 := rfl
  unfold unbiasedValue
  rw [hlen, hb]
  rcases Nat.eq_or_lt_of_le hidx with h | h
  · simp [h]
  · rw [if_neg (by omega)]
    simp

/-- A successful half-open draw lies strictly below the upper bound. -/
theorem genRange_bounds {lo hi x : Nat} {r r2 : Rng}
    (h : genRange lo hi r = some (x, r2)) : lo ≤ x ∧ x < hi := by
  by_cases hlt : lo < hi
  · simp only [genRange, Rng.next] at h
    rw [if_pos hlt] at h
    simp only [Option.some.injEq, Prod.mk.injEq] at h
    have : r.seq r.pos % (hi - lo) < hi - lo := Nat.mod_lt _ (by omega)
    omega
  · simp only [genRange, Rng.next] at h
    rw [if_neg hlt] at h
    cases h

/-- A successful inclusive draw lies inside the inclusive interval. -/
theorem uniformInclusive_bounds {lo hi x : Nat} {r r2 : Rng}
    (h : uniformInclusive lo hi r = some (x, r2)) : lo ≤ x ∧ x ≤ hi := by
  by_cases hle : lo ≤ hi
  · simp only [uniformInclusive, Rng.next] at h
    rw [if_pos hle] at h
    simp only [Option.some.injEq, Prod.mk.injEq] at h
    have : r.seq r.pos % (hi - lo + 1) < hi - lo + 1 := Nat.mod_lt _ (by omega)
    omega
  · simp only [uniformInclusive, Rng.next] at h
    rw [if_neg hle] at h
    cases h

/-- On at most `SAMPLE_UNBIASED_LIMIT` ranges the sampler takes the unbiased
branch. -/
theorem sample_unbiased_eq (m : Nat) (ranges : List (Nat × Nat)) (r : Rng)
    (hlen : ranges.length ≤ 2) :
    sample_from_ranges m ranges r =
      match genRange 0 (normalizedTable m ranges).2 r with
      | none => none
      | some (idx, r') =>
        some (unbiasedValue (normalizedTable m ranges).1 idx, r') := by
  unfold sample_from_ranges SAMPLE_UNBIASED_LIMIT
  rw [if_pos hlen]

/-- On more than `SAMPLE_UNBIASED_LIMIT` ranges the sampler takes the biased
branch. -/
theorem sample_biased_eq (m : Nat) (ranges : List (Nat × Nat)) (r : Rng)
    (hlen : ¬ ranges.length ≤ 2) :
    sample_from_ranges m ranges r =
      uniformInclusive (ranges.getD (r.next.1 % ranges.length) (0, 0)).1
        (ranges.getD (r.next.1 % ranges.length) (0, 0)).2 r.next.2 := by
  unfold sample_from_ranges SAMPLE_UNBIASED_LIMIT
  rw [if_neg hlen]

/-- Whenever the sampler returns a value, that value lies inside one of the
(well-formed) input ranges — in both the unbiased and the biased branch. -/
theorem sample_in_range {m : Nat} {ranges : List (Nat × Nat)} {r r' : Rng}
    {v : Nat} (hwf : ∀ p ∈ ranges, p.1 ≤ p.2)
    (h : sample_from_ranges m ranges r = some (v, r')) :
    inRanges ranges v := by
  rcases ranges with _ | ⟨⟨s, e⟩, rest⟩
  · rw [sample_unbiased_eq m [] r (by simp)] at h
    simp [normalizedTable, genRange] at h
  rcases rest with _ | ⟨⟨s1, e1⟩, rest2⟩
  · -- one range
    rw [sample_unbiased_eq m [(s, e)] r (by simp), normalizedTable_one] at h
    dsimp only at h
    rcases hg : genRange 0 ((e - s + 1) % m) r with _ | ⟨idx, r2⟩
    · rw [hg] at h
      simp at h
    · rw [hg] at h
      simp only [Option.some.injEq, Prod.mk.injEq] at h
      obtain ⟨hv, -⟩ := h
      have hb := genRange_bounds hg
      have hmle := Nat.mod_le (e - s + 1) m
      have hse : s ≤ e := hwf (s, e) (by simp)
      rw [unbiasedValue_one] at hv
      exact ⟨(s, e), by simp, by omega, by omega⟩
  rcases rest2 with _ | ⟨⟨s2, e2⟩, rest3⟩
  · -- two ranges
    rw [sample_unbiased_eq m [(s, e), (s1, e1)] r (by simp),
      normalizedTable_two] at h
    dsimp only at h
    rcases hg : genRange 0 (((e - s + 1) % m + (e1 - s1 + 1) % m) % m) r with
      _ | ⟨idx, r2⟩
    · rw [hg] at h
      simp at h
    · rw [hg] at h
      simp only [Option.some.injEq, Prod.mk.injEq] at h
      obtain ⟨hv, -⟩ := h
      have hb := genRange_bounds hg
      have hW := Nat.mod_le ((e - s + 1) % m + (e1 - s1 + 1) % m) m
      have hw0 := Nat.mod_le (e - s + 1) m
      have hw1 := Nat.mod_le (e1 - s1 + 1) m
      have hse : s ≤ e := hwf (s, e) (by simp)
      have hse1 : s1 ≤ e1 := hwf (s1, e1) (by simp)
      rcases Nat.lt_or_ge idx ((e - s + 1) % m) with hlt | hge
      · rw [unbiasedValue_two_lo _ _ _ _ hlt] at hv
        exact ⟨(s, e), by simp, by omega, by omega⟩
      · rw [unbiasedValue_two_hi _ _ _ _ hge] at hv
        exact ⟨(s1, e1), by simp, by omega, by omega⟩
  · -- three or more ranges: biased branch
    have hlen : ¬ ((s, e) :: (s1, e1) :: (s2, e2) :: rest3).length ≤ 2 := by
      simp only [List.length_cons]
      omega
    rw [sample_biased_eq _ _ _ hlen] at h
    have hilt : r.next.1 % ((s, e) :: (s1, e1) :: (s2, e2) :: rest3).length <
        ((s, e) :: (s1, e1) :: (s2, e2) :: rest3).length := by
      apply Nat.mod_lt
      simp only [List.length_cons]
      omega
    rw [List.getD_eq_getElem _ _ hilt] at h
    have hb := uniformInclusive_bounds h
    exact ⟨_, List.getElem_mem hilt, hb.1, hb.2⟩

/-- The spec-side total width of a single range. -/
theorem specTotalWidth_one (s e : Nat) :
    specTotalWidth [(s, e)] = e - s + 1 := by
  simp [specTotalWidth]

/-- The spec-side total width of two ranges. -/
theorem specTotalWidth_two (s0 e0 s1 e1 : Nat) :
    specTotalWidth [(s0, e0), (s1, e1)] = (e0 - s0 + 1) + (e1 - s1 + 1) := by
  simp [specTotalWidth]

/-- The sampler succeeds on a non-empty list of well-formed ranges whose
total width does not overflow the item type (the width condition only
matters on the unbiased branch). -/
theorem sample_some {m : Nat} (ranges : List (Nat × Nat)) (r : Rng)
    (hne : ranges ≠ [])
    (hwf : ∀ p ∈ ranges, p.1 ≤ p.2 ∧ p.2 < m)
    (htot : ranges.length ≤ 2 → specTotalWidth ranges < m) :
    ∃ v r', sample_from_ranges m ranges r = some (v, r') := by
  rcases ranges with _ | ⟨⟨s, e⟩, rest⟩
  · exact absurd rfl hne
  rcases rest with _ | ⟨⟨s1, e1⟩, rest2⟩
  · -- one range
    rw [sample_unbiased_eq m [(s, e)] r (by simp), normalizedTable_one]
    dsimp only
    have htot1 := htot (by simp)
    rw [specTotalWidth_one] at htot1
    have hw : (e - s + 1) % m = e - s + 1 := Nat.mod_eq_of_lt htot1
    rw [hw]
    have hpos : 0 < e - s + 1 := by omega
    simp only [genRange, Rng.next]
    rw [if_pos hpos]
    exact ⟨_, _, rfl⟩
  rcases rest2 with _ | ⟨⟨s2, e2⟩, rest3⟩
  · -- two ranges
    rw [sample_unbiased_eq m [(s, e), (s1, e1)] r (by simp),
      normalizedTable_two]
    dsimp only
    have htot2 := htot (by simp)
    rw [specTotalWidth_two] at htot2
    have hw0 : (e - s + 1) % m = e - s + 1 := Nat.mod_eq_of_lt (by omega)
    have hw1 : (e1 - s1 + 1) % m = e1 - s1 + 1 := Nat.mod_eq_of_lt (by omega)
    rw [hw0, hw1]
    have hW : (e - s + 1 + (e1 - s1 + 1)) % m = e - s + 1 + (e1 - s1 + 1) :=
      Nat.mod_eq_of_lt htot2
    rw [hW]
    have hpos : 0 < e - s + 1 + (e1 - s1 + 1) := by omega
    simp only [genRange, Rng.next]
    rw [if_pos hpos]
    exact ⟨_, _, rfl⟩
  · -- three or more ranges: biased branch
    have hlen : ¬ ((s, e) :: (s1, e1) :: (s2, e2) :: rest3).length ≤ 2 := by
      simp only [List.length_cons]
      omega
    rw [sample_biased_eq _ _ _ hlen]
    have hilt : r.next.1 % ((s, e) :: (s1, e1) :: (s2, e2) :: rest3).length <
        ((s, e) :: (s1, e1) :: (s2, e2) :: rest3).length := by
      apply Nat.mod_lt
      simp only [List.length_cons]
      omega
    rw [List.getD_eq_getElem _ _ hilt]
    have hwfe := hwf _ (List.getElem_mem hilt)
    simp only [uniformInclusive]
    rw [if_pos hwfe.1]
    exact ⟨_, _, rfl⟩

/-! ### C10 -/

/-- C10 counterexample: the byte class covering all 256 values is non-empty
and well-formed (and trivially sorted), yet the unbiased branch's width
accumulator wraps to 0 in `u8` arithmetic and the sampler panics on an empty
`gen_range` instead of returning a value. -/
theorem c10_counterexample :
    ((0 : Nat) ≤ 255 ∧ ([((0 : Nat), (255 : Nat))] : List (Nat × Nat)) ≠ []) ∧
      sample_from_ranges u8Mod [(0, 255)] ⟨fun _ => 7, 3⟩ = none := by
  refine ⟨⟨by norm_num, by simp⟩, ?_⟩
  rw [sample_unbiased_eq u8Mod [(0, 255)] _ (by simp), normalizedTable_one]
  norm_num [u8Mod, genRange]

/-- C10 (amended): on a non-empty list of well-formed ranges the sampler
returns a value lying inside one of the ranges, in both the unbiased and the
biased strategy, provided (in the unbiased, at-most-2-ranges case) that the
total combined width does not overflow the item type — a byte class covering
all 256 values overflows the `u8` width accumulator and panics instead. -/
theorem c10_sample_within_ranges (m : Nat) (ranges : List (Nat × Nat))
    (r : Rng) (hne : ranges ≠ [])
    (hwf : ∀ p ∈ ranges, p.1 ≤ p.2 ∧ p.2 < m)
    (htot : ranges.length ≤ 2 → specTotalWidth ranges < m) :
    ∃ v r', sample_from_ranges m ranges r = some (v, r') ∧ inRanges ranges v := by
  obtain ⟨v, r', hs⟩ := sample_some ranges r hne hwf htot
  exact ⟨v, r', hs, sample_in_range (fun p hp => (hwf p hp).1) hs⟩

/-- C10 witness: the amended theorem applied to the byte class `[a-z]`. -/
theorem c10_witness :
    (([((97 : Nat), (122 : Nat))] : List (Nat × Nat)) ≠ [] ∧
      (∀ p ∈ ([((97 : Nat), (122 : Nat))] : List (Nat × Nat)),
        p.1 ≤ p.2 ∧ p.2 < u8Mod) ∧
      (([((97 : Nat), (122 : Nat))] : List (Nat × Nat)).length ≤ 2 →
        specTotalWidth [(97, 122)] < u8Mod)) ∧
    ∃ v r', sample_from_ranges u8Mod [(97, 122)] ⟨fun _ => 0, 0⟩ = some (v, r') ∧
      inRanges [(97, 122)] v := by
  have h1 : ([((97 : Nat), (122 : Nat))] : List (Nat × Nat)) ≠ [] := by simp
  have h2 : ∀ p ∈ ([((97 : Nat), (122 : Nat))] : List (Nat × Nat)),
      p.1 ≤ p.2 ∧ p.2 < u8Mod := by
    simp [u8Mod]
  have h3 : (([((97 : Nat), (122 : Nat))] : List (Nat × Nat)).length ≤ 2 →
      specTotalWidth [(97, 122)] < u8Mod) := by
    intro _
    simp [specTotalWidth, u8Mod]
  exact ⟨⟨h1, h2, h3⟩,
    c10_sample_within_ranges u8Mod [(97, 122)] ⟨fun _ => 0, 0⟩ h1 h2 h3⟩

/-- The union of a single range as a set. -/
theorem inRanges_one_set (s e : Nat) :
    {v | inRanges [(s, e)] v} = Set.Icc s e := by
  ext v
  simp [inRanges, Set.mem_Icc]

/-- The union of two ranges as a set. -/
theorem inRanges_two_set (s0 e0 s1 e1 : Nat) :
    {v | inRanges [(s0, e0), (s1, e1)] v} = Set.Icc s0 e0 ∪ Set.Icc s1 e1 := by
  ext v
  simp [inRanges, Set.mem_Icc, Set.mem_union]

/-- The unbiased index-to-value map of a one-range table is a bijection from
the index interval onto the range. -/
theorem bijOn_one (s e : Nat) (hse : s ≤ e) :
    Set.BijOn (unbiasedValue [(0, s)]) (Set.Iio (e - s + 1))
      (Set.Icc s e) := by
  refine ⟨?_, ?_, ?_⟩
  · intro x hx
    simp only [Set.mem_Iio] at hx
    rw [Set.mem_Icc, unbiasedValue_one]
    omega
  · intro x hx y hy hxy
    simp only [Set.mem_Iio] at hx hy
    rw [unbiasedValue_one, unbiasedValue_one] at hxy
    omega
  · intro v hv
    simp only [Set.mem_Icc] at hv
    refine ⟨v - s, ?_, ?_⟩
    · simp only [Set.mem_Iio]
      omega
    · rw [unbiasedValue_one]
      omega

/-- The unbiased index-to-value map of a two-range table (disjoint, in
increasing order) is a bijection from the index interval onto the union of
the two ranges. -/
theorem bijOn_two (s0 e0 s1 e1 : Nat) (h0 : s0 ≤ e0) (h01 : e0 < s1)
    (h1 : s1 ≤ e1) :
    Set.BijOn (unbiasedValue [(0, s0), (e0 - s0 + 1, s1)])
      (Set.Iio ((e0 - s0 + 1) + (e1 - s1 + 1)))
      (Set.Icc s0 e0 ∪ Set.Icc s1 e1) := by
  refine ⟨?_, ?_, ?_⟩
  · intro x hx
    simp only [Set.mem_Iio] at hx
    rcases Nat.lt_or_ge x (e0 - s0 + 1) with hlt | hge
    · rw [Set.mem_union, unbiasedValue_two_lo _ _ _ _ hlt]
      left
      rw [Set.mem_Icc]
      omega
    · rw [Set.mem_union, unbiasedValue_two_hi _ _ _ _ hge]
      right
      rw [Set.mem_Icc]
      omega
  · intro x hx y hy hxy
    simp only [Set.mem_Iio] at hx hy
    rcases Nat.lt_or_ge x (e0 - s0 + 1) with hltx | hgex <;>
      rcases Nat.lt_or_ge y (e0 - s0 + 1) with hlty | hgey
    · rw [unbiasedValue_two_lo _ _ _ _ hltx,
        unbiasedValue_two_lo _ _ _ _ hlty] at hxy
      omega
    · rw [unbiasedValue_two_lo _ _ _ _ hltx,
        unbiasedValue_two_hi _ _ _ _ hgey] at hxy
      omega
    · rw [unbiasedValue_two_hi _ _ _ _ hgex,
        unbiasedValue_two_lo _ _ _ _ hlty] at hxy
      omega
    · rw [unbiasedValue_two_hi _ _ _ _ hgex,
        unbiasedValue_two_hi _ _ _ _ hgey] at hxy
      omega
  · intro v hv
    rw [Set.mem_union, Set.mem_Icc, Set.mem_Icc] at hv
    rcases hv with hv | hv
    · refine ⟨v - s0, ?_, ?_⟩
      · simp only [Set.mem_Iio]
        omega
      · rw [unbiasedValue_two_lo _ _ _ _ (by omega)]
        omega
    · refine ⟨(e0 - s0 + 1) + (v - s1), ?_, ?_⟩
      · simp only [Set.mem_Iio]
        omega
      · rw [unbiasedValue_two_hi _ _ _ _ (by omega)]
        omega

/-! ### C6 -/

/-- C6 counterexample: the byte class covering all 256 values satisfies the
claim's hypotheses (one non-empty range), but the `u8` width accumulator
wraps to 0, so the drawn-index domain is not the total combined width
`[0, 256)` — no index is drawn at all and the sampler panics, so it is not
a bijection onto the union and values are not equiprobable. -/
theorem c6_counterexample :
    ((0 : Nat) ≤ 255) ∧
    (normalizedTable u8Mod [(0, 255)]).2 = 0 ∧
    specTotalWidth [(0, 255)] = 256 ∧
    sample_from_ranges u8Mod [(0, 255)] ⟨fun _ => 0, 0⟩ = none := by
  refine ⟨by norm_num, ?_, ?_, ?_⟩
  · rw [normalizedTable_one]
    norm_num [u8Mod]
  · rw [specTotalWidth_one]
  · rw [sample_unbiased_eq u8Mod [(0, 255)] _ (by simp), normalizedTable_one]
    norm_num [u8Mod, genRange]

/-- C6 (amended): for a class of one or two non-empty, disjoint, increasing
ranges whose total combined width is less than the item type's modulus
(always true for Unicode classes), the unbiased sampler draws its index over
exactly the total combined width, and the map from drawn index to absolute
value is a bijection from `[0, total width)` onto the union of the ranges —
hence every individual value is equally likely.  A byte class covering all
256 values instead wraps the width accumulator and panics. -/
theorem c6_unbiased_bijection :
    (∀ m s e, s ≤ e → e - s + 1 < m →
      (normalizedTable m [(s, e)]).2 = specTotalWidth [(s, e)] ∧
      Set.BijOn (unbiasedValue (normalizedTable m [(s, e)]).1)
        (Set.Iio (specTotalWidth [(s, e)])) {v | inRanges [(s, e)] v}) ∧
    (∀ m s0 e0 s1 e1, s0 ≤ e0 → e0 < s1 → s1 ≤ e1 →
      specTotalWidth [(s0, e0), (s1, e1)] < m →
      (normalizedTable m [(s0, e0), (s1, e1)]).2 =
        specTotalWidth [(s0, e0), (s1, e1)] ∧
      Set.BijOn (unbiasedValue (normalizedTable m [(s0, e0), (s1, e1)]).1)
        (Set.Iio (specTotalWidth [(s0, e0), (s1, e1)]))
        {v | inRanges [(s0, e0), (s1, e1)] v}) := by
  constructor
  · intro m s e hse hw
    rw [normalizedTable_one, specTotalWidth_one, inRanges_one_set]
    refine ⟨Nat.mod_eq_of_lt hw, ?_⟩
    exact bijOn_one s e hse
  · intro m s0 e0 s1 e1 h0 h01 h1 htot
    rw [specTotalWidth_two] at htot
    rw [normalizedTable_two, specTotalWidth_two, inRanges_two_set]
    have hw0 : (e0 - s0 + 1) % m = e0 - s0 + 1 := Nat.mod_eq_of_lt (by omega)
    have hw1 : (e1 - s1 + 1) % m = e1 - s1 + 1 := Nat.mod_eq_of_lt (by omega)
    rw [hw0, hw1]
    refine ⟨Nat.mod_eq_of_lt htot, ?_⟩
    exact bijOn_two s0 e0 s1 e1 h0 h01 h1

/-- C6 witness: the amended theorem applied to the two ranges of the `.`
class (any character except newline) in the `u32` item type. -/
theorem c6_witness :
    ((0 : Nat) ≤ 9 ∧ (9 : Nat) < 11 ∧ (11 : Nat) ≤ 1114111 ∧
      specTotalWidth [(0, 9), (11, 1114111)] < u32Mod) ∧
    (normalizedTable u32Mod [(0, 9), (11, 1114111)]).2 =
      specTotalWidth [(0, 9), (11, 1114111)] := by
  have h0 : (0 : Nat) ≤ 9 := by norm_num
  have h01 : (9 : Nat) < 11 := by norm_num
  have h1 : (11 : Nat) ≤ 1114111 := by norm_num
  have htot : specTotalWidth [(0, 9), (11, 1114111)] < u32Mod := by
    rw [specTotalWidth_two]
    norm_num [u32Mod]
  exact ⟨⟨h0, h01, h1, htot⟩,
    (c6_unbiased_bijection.2 u32Mod 0 9 11 1114111 h0 h01 h1 htot).1⟩

/-- A class of at most two ranges whose upper bounds are Unicode scalar
ordinals has a total width far below the `u32` modulus. -/
theorem specTotalWidth_small (ranges : List (Nat × Nat))
    (hwf : ∀ p ∈ ranges, p.2 ≤ 0x10FFFF) (hlen : ranges.length ≤ 2) :
    specTotalWidth ranges < u32Mod := by
  rcases ranges with _ | ⟨⟨s, e⟩, _ | ⟨⟨s1, e1⟩, _ | ⟨p, t⟩⟩⟩
  · simp [specTotalWidth, u32Mod]
  · have h1 : e ≤ 0x10FFFF := hwf (s, e) (by simp)
    rw [specTotalWidth_one]
    unfold u32Mod
    omega
  · have h1 : e ≤ 0x10FFFF := hwf (s, e) (by simp)
    have h2 : e1 ≤ 0x10FFFF := hwf (s1, e1) (by simp)
    rw [specTotalWidth_two]
    unfold u32Mod
    omega
  · simp only [List.length_cons] at hlen
    omega

/-- The Unicode-class resample loop on an always-accepting sink either is
still resampling or has emitted the UTF-8 encoding of a valid scalar; it
never produces an error or a panic. -/
theorem classLoop_spin_or_ok (ranges : List (Nat × Nat)) (hne : ranges ≠ [])
    (hwf : ∀ p ∈ ranges, p.1 ≤ p.2 ∧ p.2 ≤ 0x10FFFF) :
    ∀ fuel buf r,
      classUnicodeLoop ranges fuel ⟨buf, none⟩ r = .spin ∨
      ∃ c r', isValidScalar c = true ∧
        classUnicodeLoop ranges fuel ⟨buf, none⟩ r =
          .ok ⟨buf ++ utf8Encode c, none⟩ r' := by
  intro fuel
  induction fuel with
  | zero => intro buf r; left; rfl
  | succ n ih =>
    intro buf r
    have hwf2 : ∀ p ∈ ranges, p.1 ≤ p.2 ∧ p.2 < u32Mod := by
      intro p hp
      have h2 := (hwf p hp).2
      refine ⟨(hwf p hp).1, ?_⟩
      unfold u32Mod
      omega
    obtain ⟨v, r2, hs⟩ := sample_some ranges r hne hwf2
      (fun hl => specTotalWidth_small ranges (fun p hp => (hwf p hp).2) hl)
    by_cases hv : isValidScalar v
    · right
      refine ⟨v, r2, hv, ?_⟩
      simp only [classUnicodeLoop, hs]
      rw [if_pos hv]
      simp [Sink.write]
    · have heq : classUnicodeLoop ranges (n + 1) ⟨buf, none⟩ r =
          classUnicodeLoop ranges n ⟨buf, none⟩ r2 := by
        simp only [classUnicodeLoop, hs]
        rw [if_neg hv]
      rw [heq]
      exact ih buf r2

/-! ### C7 -/

/-- C7: generating from a Unicode class on an always-accepting sink never
surfaces an error (or panic) because a drawn ordinal is not a valid scalar:
an invalid draw only causes another draw, and whatever the arm emits is the
UTF-8 encoding of a valid Unicode scalar value. -/
theorem c7_invalid_draws_resample (ranges : List (Nat × Nat))
    (hne : ranges ≠ [])
    (hwf : ∀ p ∈ ranges, p.1 ≤ p.2 ∧ p.2 ≤ 0x10FFFF) :
    ∀ fuel maxRepeat buf r,
      genHir fuel maxRepeat (.classUnicode ranges) ⟨buf, none⟩ r = .spin ∨
      ∃ c r', isValidScalar c = true ∧
        genHir fuel maxRepeat (.classUnicode ranges) ⟨buf, none⟩ r =
          .ok ⟨buf ++ utf8Encode c, none⟩ r' := by
  intro fuel mr buf r
  have hg : genHir fuel mr (.classUnicode ranges) ⟨buf, none⟩ r =
      classUnicodeLoop ranges fuel ⟨buf, none⟩ r := by
    simp only [genHir]
  rw [hg]
  exact classLoop_spin_or_ok ranges hne hwf fuel buf r

/-- C7 witness: the theorem applied to the class `[a-z]` with one unit of
resample fuel. -/
theorem c7_witness :
    (([((97 : Nat), (122 : Nat))] : List (Nat × Nat)) ≠ [] ∧
      (∀ p ∈ ([((97 : Nat), (122 : Nat))] : List (Nat × Nat)),
        p.1 ≤ p.2 ∧ p.2 ≤ 0x10FFFF)) ∧
    (genHir 1 100 (.classUnicode [(97, 122)]) ⟨[], none⟩ ⟨fun _ => 0, 0⟩ =
        .spin ∨
      ∃ c r', isValidScalar c = true ∧
        genHir 1 100 (.classUnicode [(97, 122)]) ⟨[], none⟩ ⟨fun _ => 0, 0⟩ =
          .ok ⟨[] ++ utf8Encode c, none⟩ r') := by
  have h1 : ([((97 : Nat), (122 : Nat))] : List (Nat × Nat)) ≠ [] := by simp
  have h2 : ∀ p ∈ ([((97 : Nat), (122 : Nat))] : List (Nat × Nat)),
      p.1 ≤ p.2 ∧ p.2 ≤ 0x10FFFF := by
    simp
  exact ⟨⟨h1, h2⟩,
    c7_invalid_draws_resample [(97, 122)] h1 h2 1 100 [] ⟨fun _ => 0, 0⟩⟩

/-- Extracting well-formedness of every range from `scalarRangesB`. -/
theorem scalarRangesB_wf (ranges : List (Nat × Nat))
    (h : scalarRangesB ranges = true) : ∀ p ∈ ranges, p.1 ≤ p.2 := by
  intro p hp
  unfold scalarRangesB at h
  rw [Bool.and_eq_true] at h
  have h2 := h.2
  rw [List.all_eq_true] at h2
  have hps := h2 p hp
  simp only [Bool.and_eq_true, Bool.or_eq_true, decide_eq_true_eq] at hps
  exact hps.1.1

/-- Every value spanned by a range of a `scalarRangesB` class is a valid
scalar. -/
theorem scalarRangesB_valid (ranges : List (Nat × Nat))
    (h : scalarRangesB ranges = true) (p : Nat × Nat) (hp : p ∈ ranges)
    (v : Nat) (h1 : p.1 ≤ v) (h2 : v ≤ p.2) : isValidScalar v = true := by
  unfold scalarRangesB at h
  rw [Bool.and_eq_true] at h
  have hall := h.2
  rw [List.all_eq_true] at hall
  have hps := hall p hp
  simp only [Bool.and_eq_true, Bool.or_eq_true, decide_eq_true_eq] at hps
  simp only [isValidScalar, decide_eq_true_eq]
  omega

/-- Children of a scalar-only Concat node are scalar-only. -/
theorem scalarOnlyB_concat (hs : List Hir)
    (h : scalarOnlyB (.concat hs) = true) :
    ∀ h' ∈ hs, scalarOnlyB h' = true := by
  intro h' hmem
  simp only [scalarOnlyB] at h
  rw [List.all_eq_true] at h
  exact h ⟨h', hmem⟩ (List.mem_attach hs ⟨h', hmem⟩)

/-- Children of a scalar-only Alternation node are scalar-only. -/
theorem scalarOnlyB_alternation (hs : List Hir)
    (h : scalarOnlyB (.alternation hs) = true) :
    ∀ h' ∈ hs, scalarOnlyB h' = true := by
  intro h' hmem
  simp only [scalarOnlyB] at h
  rw [List.all_eq_true] at h
  exact h ⟨h', hmem⟩ (List.mem_attach hs ⟨h', hmem⟩)

/-- On a scalar-only class the resample loop exits (or panics) within its
first iteration: it never spins, for any sink, randomness source, or
positive fuel. -/
theorem classLoop_no_spin (ranges : List (Nat × Nat))
    (hcl : scalarRangesB ranges = true) :
    ∀ fuel, 1 ≤ fuel → ∀ s r, classUnicodeLoop ranges fuel s r ≠ .spin := by
  intro fuel hf s r
  rcases fuel with _ | k
  · omega
  · cases hsamp : sample_from_ranges u32Mod ranges r with
    | none => simp [classUnicodeLoop, hsamp]
    | some p =>
      obtain ⟨v, r2⟩ := p
      obtain ⟨q, hq, hq1, hq2⟩ :=
        sample_in_range (scalarRangesB_wf ranges hcl) hsamp
      have hvalid : isValidScalar v = true :=
        scalarRangesB_valid ranges hcl q hq v hq1 hq2
      cases hw : s.write (utf8Encode v) <;>
        simp [classUnicodeLoop, hsamp, hvalid, hw]

/-- The repetition loop never spins when its child never spins. -/
theorem genRep_no_spin (fuel mr : Nat) (child : Hir)
    (hchild : ∀ s r, genHir fuel mr child s r ≠ .spin) :
    ∀ count s r, genRep fuel mr child count s r ≠ .spin := by
  intro count
  induction count with
  | zero => intro s r; simp [genRep]
  | succ n ihc =>
    intro s r
    cases hg : genHir fuel mr child s r with
    | ok s' r' =>
      have heq : genRep fuel mr child (n + 1) s r =
          genRep fuel mr child n s' r' := by
        simp only [genRep, hg]
      rw [heq]
      exact ihc s' r'
    | err s' r' => simp [genRep, hg]
    | panic s' r' => simp [genRep, hg]
    | spin => exact absurd hg (hchild s r)

/-- The concat loop never spins when none of its children spins. -/
theorem genList_no_spin (fuel mr : Nat) :
    ∀ hs : List Hir,
      (∀ h' ∈ hs, ∀ s r, genHir fuel mr h' s r ≠ .spin) →
      ∀ s r, genList fuel mr hs s r ≠ .spin := by
  intro hs
  induction hs with
  | nil => intro _ s r; simp [genList]
  | cons hd tl ihl =>
    intro helem s r
    cases hg : genHir fuel mr hd s r with
    | ok s' r' =>
      have heq : genList fuel mr (hd :: tl) s r = genList fuel mr tl s' r' := by
        simp only [genList, hg]
      rw [heq]
      exact ihl (fun h' hm => helem h' (List.mem_cons_of_mem hd hm)) s' r'
    | err s' r' => simp [genList, hg]
    | panic s' r' => simp [genList, hg]
    | spin => exact absurd hg (helem hd (List.mem_cons_self hd tl) s r)

/-- Strong-induction core: a scalar-only tree never makes the walk spin. -/
theorem genHir_no_spin_aux :
    ∀ n h, sizeOf h ≤ n → ∀ fuel maxRepeat s r, scalarOnlyB h = true →
      1 ≤ fuel → genHir fuel maxRepeat h s r ≠ .spin := by
  intro n
  induction n with
  | zero =>
    intro h hle
    exact absurd hle (by cases h <;> simp_arith)
  | succ n ih =>
    intro h hle fuel mr s r hsc hf
    cases h with
    | empty => simp [genHir]
    | wordBoundary => simp [genHir]
    | anchor a =>
      cases a <;> cases hw : s.write [10] <;> simp [genHir, hw]
    | literalUnicode c =>
      cases hw : s.write (utf8Encode c) <;> simp [genHir, hw]
    | literalByte b =>
      cases hw : s.write [b] <;> simp [genHir, hw]
    | classUnicode rs =>
      have hcl : scalarRangesB rs = true := by
        simpa only [scalarOnlyB] using hsc
      have hg : genHir fuel mr (.classUnicode rs) s r =
          classUnicodeLoop rs fuel s r := by
        simp only [genHir]
      rw [hg]
      exact classLoop_no_spin rs hcl fuel hf s r
    | classBytes rs =>
      cases hsamp : sample_from_ranges u8Mod rs r with
      | none => simp [genHir, hsamp]
      | some p =>
        obtain ⟨v, r2⟩ := p
        cases hw : s.write [v % u8Mod] <;> simp [genHir, hsamp, hw]
    | repetition kind g child =>
      have hchild : ∀ s' r', genHir fuel mr child s' r' ≠ .spin := by
        intro s' r'
        apply ih child ?_ fuel mr s' r' ?_ hf
        · simp only [Hir.repetition.sizeOf_spec] at hle
          omega
        · simpa only [scalarOnlyB] using hsc
      cases hres : resolveCount kind g mr r with
      | none => simp [genHir, hres]
      | some p =>
        obtain ⟨count, r2⟩ := p
        have hg : genHir fuel mr (.repetition kind g child) s r =
            genRep fuel mr child count s r2 := by
          simp only [genHir, hres]
        rw [hg]
        exact genRep_no_spin fuel mr child hchild count s r2
    | group child =>
      have hg : genHir fuel mr (.group child) s r =
          genHir fuel mr child s r := by
        simp only [genHir]
      rw [hg]
      apply ih child ?_ fuel mr s r ?_ hf
      · simp only [Hir.group.sizeOf_spec] at hle
        omega
      · simpa only [scalarOnlyB] using hsc
    | concat hs =>
      have helem : ∀ h' ∈ hs, ∀ s' r', genHir fuel mr h' s' r' ≠ .spin := by
        intro h' hmem s' r'
        apply ih h' ?_ fuel mr s' r' ?_ hf
        · have hlt := List.sizeOf_lt_of_mem hmem
          simp only [Hir.concat.sizeOf_spec] at hle
          omega
        · exact scalarOnlyB_concat hs hsc h' hmem
      have hg : genHir fuel mr (.concat hs) s r = genList fuel mr hs s r := by
        simp only [genHir]
      rw [hg]
      exact genList_no_spin fuel mr hs helem s r
    | alternation hs =>
      simp only [genHir]
      split
      · simp
      · next h0 =>
        apply ih (hs.get ⟨r.next.1 % hs.length,
            Nat.mod_lt _ (Nat.pos_of_ne_zero h0)⟩) ?_ fuel mr s r.next.2 ?_ hf
        · have hlt := List.sizeOf_lt_of_mem (List.get_mem hs
            (r.next.1 % hs.length) (Nat.mod_lt _ (Nat.pos_of_ne_zero h0)))
          simp only [Hir.alternation.sizeOf_spec] at hle
          omega
        · exact scalarOnlyB_alternation hs hsc _ (List.get_mem hs _ _)

/-- A scalar-only tree never makes the walk spin, for any sink, randomness
source, bound, and positive fuel. -/
theorem genHir_no_spin (h : Hir) (fuel maxRepeat : Nat) (s : Sink) (r : Rng)
    (hsc : scalarOnlyB h = true) (hf : 1 ≤ fuel) :
    genHir fuel maxRepeat h s r ≠ .spin :=
  genHir_no_spin_aux (sizeOf h) h (Nat.le_refl _) fuel maxRepeat s r hsc hf

/-! ### C8 -/

/-- The `.` class's draw of the surrogate ordinal `0xD800` from the stream
that constantly yields `0xD7FF`. -/
theorem dot_sample (p : Nat) :
    sample_from_ranges u32Mod [(0, 9), (11, 1114111)] ⟨fun _ => 55295, p⟩ =
      some (55296, ⟨fun _ => 55295, p + 1⟩) := by
  rw [sample_unbiased_eq _ _ _ (by simp), normalizedTable_two]
  norm_num [u32Mod, -Prod.mk_zero_zero]
  have hg : genRange 0 1114111 ⟨fun _ => 55295, p⟩ =
      some (55295, ⟨fun _ => 55295, p + 1⟩) := by
    simp only [genRange, Rng.next]
    norm_num
  rw [hg]
  dsimp only
  rw [unbiasedValue_two_hi 0 11 10 55295 (by norm_num)]

/-- Against the constant-`0xD7FF` source, the `.` class's resample loop
never exits, whatever the unrolling fuel. -/
theorem dot_loop_spin :
    ∀ fuel p s,
      classUnicodeLoop [(0, 9), (11, 1114111)] fuel s ⟨fun _ => 55295, p⟩ =
        .spin := by
  intro fuel
  induction fuel with
  | zero => intro p s; rfl
  | succ n ih =>
    intro p s
    have hs := dot_sample p
    simp only [classUnicodeLoop, hs]
    rw [if_neg (by simp [isValidScalar])]
    exact ih (p + 1) s

/-- C8 counterexample: for the pattern `.` (the two-range class of every
character except newline, which spans the surrogate block) and a randomness
source that constantly yields the ordinal mapping to the surrogate `0xD800`,
the generate call never finishes: the scalar-validation resample loop runs
forever, at every modelled unrolling depth. -/
theorem c8_counterexample :
    ¬ ∃ fuel,
      (Generator.generate fuel
          ⟨.classUnicode [(0, 9), (11, 1114111)], ⟨fun _ => 55295, 0⟩, 100⟩
          ⟨[], none⟩).1 ≠ GenOut.spin := by
  rintro ⟨fuel, hf⟩
  apply hf
  unfold Generator.generate
  dsimp only
  have hg : genHir fuel 100 (.classUnicode [(0, 9), (11, 1114111)])
      ⟨[], none⟩ ⟨fun _ => 55295, 0⟩ = .spin := by
    simp only [genHir]
    exact dot_loop_spin fuel 0 ⟨[], none⟩
  rw [hg]

/-- C8 (amended): the tree walk terminates for every pattern, randomness
source, sink and bound provided every Unicode class in the pattern spans
only valid scalar values (then each resample loop exits on its first
iteration, so one unit of resample fuel already suffices and is never
exhausted); without that condition the resample loop is not bounded, as the
counterexample shows. -/
theorem c8_terminates_on_scalar_classes (g : Generator) (buffer : Sink)
    (fuel : Nat) (hscalar : scalarOnlyB g.hir = true) (hfuel : 1 ≤ fuel) :
    (g.generate fuel buffer).1 ≠ GenOut.spin := by
  unfold Generator.generate
  cases hg : genHir fuel g.max_repeat g.hir buffer g.rng with
  | ok s r => simp
  | err s r => simp
  | panic s r => simp
  | spin =>
    exact absurd hg
      (genHir_no_spin g.hir fuel g.max_repeat buffer g.rng hscalar hfuel)

/-- C8 witness: the amended theorem applied to a one-byte literal pattern. -/
theorem c8_witness :
    (scalarOnlyB (.literalByte 97) = true ∧ 1 ≤ 1) ∧
    (Generator.generate 1 ⟨.literalByte 97, ⟨fun _ => 0, 0⟩, 100⟩
        ⟨[], none⟩).1 ≠ GenOut.spin := by
  have h1 : scalarOnlyB (.literalByte 97) = true := by simp [scalarOnlyB]
  exact ⟨⟨h1, Nat.le_refl 1⟩,
    c8_terminates_on_scalar_classes ⟨.literalByte 97, ⟨fun _ => 0, 0⟩, 100⟩
      ⟨[], none⟩ 1 h1 (Nat.le_refl 1)⟩

/-- C4 witness: the amended theorem applied at `M = 3`, `min = 5`. -/
theorem c4_witness :
    (1 ≤ 3 ∧ 3 < u32Mod ∧ 3 ≤ 5) ∧
      resolveCount (.range (.atLeast 5)) true 3 ⟨fun _ => 1, 0⟩ = none := by
  have h1 : (1 : Nat) ≤ 3 := by norm_num
  have h2 : (3 : Nat) < u32Mod := by norm_num [u32Mod]
  have h3 : (3 : Nat) ≤ 5 := by norm_num
  exact ⟨⟨h1, h2, h3⟩, c4_min_above_bound_panics 3 5 ⟨fun _ => 1, 0⟩ h1 h2 h3⟩

end RegexGenerate
